import Mathlib

/-!
Shallow embedding of the mincovka denomination-breakdown program
(src/app.py) and proofs of the specification's claims about it.

Python integers are modelled as Int (Python floor division is Int.fdiv);
non-negative quantities that the source keeps in int are Nat where noted;
Python strings are String / List Char; dicts keyed by denomination labels
are association lists in insertion order (Python dicts preserve insertion
order); code that can raise returns Option.
-/

/-- Whitespace strip of both ends of a character list; models Python
str.strip() restricted to the whitespace characters Char.isWhitespace
recognises (space, tab, CR, LF), which are the only ones this program's
inputs contain. -/
def stripWs (cs : List Char) : List Char :=
  ((cs.dropWhile Char.isWhitespace).reverse.dropWhile Char.isWhitespace).reverse

/-- Numeric value of a list of decimal digit characters, most significant
first (the digit run of a string already validated to be digits). -/
def digitsToNat (cs : List Char) : Nat :=
  cs.foldl (fun a c => a * 10 + (c.toNat - 48)) 0

/-- Python str.replace(c, "") for a single character: every occurrence of
the character is removed. -/
def removeChar (c : Char) (cs : List Char) : List Char :=
  cs.filter (fun x => !(x == c))

/-- Python int(s) applied to a string: surrounding whitespace is ignored,
then an optional sign followed by one or more digits; none models the
ValueError raise.  (Python also accepts underscores between digits and
non-ASCII decimal digits; neither ever reaches int() in this program.) -/
def pyIntStr (cs : List Char) : Option Int :=
  match stripWs cs with
  | '-' :: ds =>
    if !ds.isEmpty && ds.all Char.isDigit then some (-(digitsToNat ds : Int)) else none
  | '+' :: ds =>
    if !ds.isEmpty && ds.all Char.isDigit then some ((digitsToNat ds : Nat) : Int) else none
  | ds =>
    if !ds.isEmpty && ds.all Char.isDigit then some ((digitsToNat ds : Nat) : Int) else none

/-- Minor-unit (cent) values of the source's DENOMS_EUR = [100, 50, 20,
10, 5, 2, 1, 0.50, 0.20, 0.10, 0.05, 0.02, 0.01] (euro floats).  The
source only ever uses a denomination through int(round(denom * 100)); for
these thirteen constants that conversion is exact and yields exactly the
integers listed here, which is what the embedding stores. -/
def DENOMS_EUR_CENTS : List Nat := [10000, 5000, 2000, 1000, 500, 200, 100, 50, 20, 10, 5, 2, 1]

/-- euro_label (source lines 12-18) expressed on a denomination's cent
value: "N €" when the value is at least one euro (int(n) of the euro
float equals cents / 100 for every whole-euro denomination), otherwise
"N c" with N the cent value (int(round(n * 100))). -/
def euro_label (dc : Nat) : String :=
  if 100 ≤ dc then toString (dc / 100) ++ " €" else toString dc ++ " c"

/-- DENOM_LABELS (source line 20). -/
def DENOM_LABELS : List String := DENOMS_EUR_CENTS.map euro_label

/-- Shape gate of parse_amount_sk: a full match of the regular expression
d+([,.]d{0,2})? (source line 51), with d a decimal digit.  Python's
character class also matches non-ASCII Unicode decimal digits; the
embedding reads it over the ASCII digits, the only digits the program's
locale produces. -/
def amountShape (cs : List Char) : Bool :=
  match cs.dropWhile Char.isDigit with
  | [] => !(cs.takeWhile Char.isDigit).isEmpty
  | sep :: fs =>
    !(cs.takeWhile Char.isDigit).isEmpty &&
      ((sep == ',' || sep == '.') && fs.all Char.isDigit && decide (fs.length ≤ 2))

/-- Cent value of the at-most-two decimal digits after the separator:
one digit is tens of cents, two digits are read as written. -/
def fracCents : List Char → Nat
  | [] => 0
  | [a] => (a.toNat - 48) * 10
  | a :: b :: _ => (a.toNat - 48) * 10 + (b.toNat - 48)

/-- Exact integer-cents value of a normalized amount string; none models
a float() ValueError.  The source computes float(s) after turning "," into
"." and then round(val + 1e-12, 2); for every string the shape gate
accepts the mathematical value has at most two decimal digits, so that
pipeline denotes exactly whole*100 + fraction cents — the epsilon-biased
rounding is the source's device for making the float pipeline agree with
this exact value, and the embedding keeps the exact value directly. -/
def shapeCents (cs : List Char) : Option Int :=
  match cs.dropWhile Char.isDigit with
  | [] =>
    if (cs.takeWhile Char.isDigit).isEmpty then none
    else some ((digitsToNat (cs.takeWhile Char.isDigit) * 100 : Nat) : Int)
  | sep :: fs =>
    if !(cs.takeWhile Char.isDigit).isEmpty &&
        ((sep == ',' || sep == '.') && fs.all Char.isDigit && decide (fs.length ≤ 2)) then
      some ((digitsToNat (cs.takeWhile Char.isDigit) * 100 + fracCents fs : Nat) : Int)
    else none

/-- Normalisation prefix of parse_amount_sk (source line 46):
raw.strip().replace(" ", ""). -/
def normalizeAmount (raw : String) : List Char :=
  removeChar ' ' (stripWs raw.data)

/-- Result of parse_amount_sk.  ok carries the parsed amount in integer
cents; the three error constructors correspond one-to-one to the source's
three error messages (format, parse, negative). -/
inductive ParseResult where
  | ok (cents : Int)
  | formatError
  | parseError
  | negativeValueError
deriving DecidableEq

/-- parse_amount_sk (source lines 33-65): strip and drop spaces, accept
the empty string as zero, gate on the shape regex, convert the number
(ParseError if the conversion fails), reject a negative value, return the
amount in exact cents. -/
def parse_amount_sk (raw : String) : ParseResult :=
  if (normalizeAmount raw).isEmpty then ParseResult.ok 0
  else if amountShape (normalizeAmount raw) then
    match shapeCents (normalizeAmount raw) with
    | none => ParseResult.parseError
    | some v => if v < 0 then ParseResult.negativeValueError else ParseResult.ok v
  else ParseResult.formatError

/-- Recogniser for the NegativeValueError outcome of parse_amount_sk. -/
def isNegativeValueError : ParseResult → Bool
  | ParseResult.negativeValueError => true
  | _ => false

/-- Loop body of idx_to_person_code (source lines 71-75), the while loop
translated with a fuel argument; fuel n always suffices for loop variable
n because (n - 1) / 26 < n. -/
def idxCodeAux : Nat → Nat → List Char
  | 0, _ => []
  | fuel + 1, n =>
    if n == 0 then []
    else idxCodeAux fuel ((n - 1) / 26) ++ [Char.ofNat (65 + (n - 1) % 26)]

/-- idx_to_person_code (source lines 67-76): bijective base-26 letter
code of a zero-based index (0 -> "A", 25 -> "Z", 26 -> "AA", ...). -/
def idx_to_person_code (idx : Nat) : String :=
  String.mk (idxCodeAux (idx + 1) (idx + 1))

/-- Bijective base-26 value of a code string (A = 1 ... Z = 26); the left
inverse of the encoding, used to prove injectivity. -/
def decodeCode (cs : List Char) : Nat :=
  cs.foldl (fun a c => a * 26 + (c.toNat - 64)) 0

/-- Loop of compute_breakdown (source lines 82-88): returns the
association list of (label, count) in iteration order together with the
final remainder.  cnt = remainder // denom_cents is Python floor
division, Int.fdiv; the remainder then drops by cnt * denom_cents. -/
def breakdownLoop (remainder : Int) : List Nat → List (String × Int) × Int
  | [] => ([], remainder)
  | d :: ds =>
    let cnt := remainder.fdiv (d : Int)
    let rest := breakdownLoop (remainder - cnt * (d : Int)) ds
    ((euro_label d, cnt) :: rest.1, rest.2)

/-- compute_breakdown (source lines 78-89). -/
def compute_breakdown (amount_cents : Int) : List (String × Int) :=
  (breakdownLoop amount_cents DENOMS_EUR_CENTS).1

/-- Cent value breakdown_value_cents assigns to one label (source lines
94-100): if the label contains "€", drop the "€", strip, parse the int
and scale by 100; otherwise drop the "c", strip and parse.  (pyIntStr
itself strips, subsuming the source's .strip().) -/
def labelValue (lbl : String) : Option Int :=
  if lbl.data.any (fun c => c == '€') then
    (pyIntStr (removeChar '€' lbl.data)).map (fun v => v * 100)
  else
    pyIntStr (removeChar 'c' lbl.data)

/-- breakdown_value_cents (source lines 91-101): total of label value
times count over the entries; none models the int() ValueError a
malformed label would raise. -/
def breakdown_value_cents : List (String × Int) → Option Int
  | [] => some 0
  | (lbl, cnt) :: rest => do
    let v ← labelValue lbl
    let t ← breakdown_value_cents rest
    pure (v * cnt + t)

/-- Total piece count of a breakdown: the sum of its per-denomination
counts (the quantity the greedy algorithm minimises). -/
def total_pieces (b : List (String × Int)) : Int :=
  (b.map Prod.snd).sum

/-- Greedy count sequence as the spec's section 4.2 words describe it:
at each denomination the count issued is the integer floor division of
the current remainder by the denomination's minor-unit value, and the
remainder carried to the next denomination drops by count times value
(equivalently, it becomes the floor-modulus).  Spec-side definition, to
be compared with compute_breakdown. -/
def greedySpecCounts : Int → List Nat → List Int
  | _, [] => []
  | r, d :: ds => r.fdiv (d : Int) :: greedySpecCounts (r.fmod (d : Int)) ds

/-- Python breakdown.get(lbl, 0) on the association-list representation
of a breakdown dict. -/
def dictGetD (b : List (String × Int)) (lbl : String) : Int :=
  match b.find? (fun e => e.1 == lbl) with
  | some e => e.2
  | none => 0

/-- Aggregate count of one label after the summary loop (source lines
237 and 248): the label's count summed over every person's breakdown. -/
def summaryCount (bs : List (List (String × Int))) (lbl : String) : Int :=
  (bs.map (fun b => dictGetD b lbl)).sum

/-- summary_total_cents after the summary loop (source lines 238 and
254): the running total of breakdown_value_cents over all persons (none
if any breakdown fails to re-parse). -/
def summary_total_cents : List (List (String × Int)) → Option Int
  | [] => some 0
  | b :: bs => do
    let v ← breakdown_value_cents b
    let t ← summary_total_cents bs
    pure (v + t)

/-- Grand total of the summary table computed the per-denomination way
(source lines 260-267): the sum over denominations of aggregate count
times the denomination's cent value. -/
def summary_value_cents (bs : List (List (String × Int))) : Int :=
  (DENOMS_EUR_CENTS.map (fun d => summaryCount bs (euro_label d) * (d : Int))).sum

/-- Greedy per-denomination counts over a denomination list, for a
non-negative amount in Nat (the arithmetic content of breakdownLoop on a
non-negative remainder). -/
def gCountList : Nat → List Nat → List Nat
  | _, [] => []
  | r, d :: ds => r / d :: gCountList (r % d) ds

/-- Total greedy piece count over a denomination list. -/
def gList : Nat → List Nat → Nat
  | _, [] => 0
  | r, d :: ds => r / d + gList (r % d) ds

/-- Remainder left after greedily processing a denomination list. -/
def rList : Nat → List Nat → Nat
  | r, [] => r
  | r, d :: ds => rList (r % d) ds

/-- Whole-euro denominations in euros (the cent table's first seven
entries are these times 100). -/
def BIGD : List Nat := [100, 50, 20, 10, 5, 2, 1]

/-- Sub-euro denominations in cents (the cent table's last six entries). -/
def SMALLD : List Nat := [50, 20, 10, 5, 2, 1]

/-- Greedy piece count over the whole-euro denominations. -/
def g7 (q : Nat) : Nat := gList q BIGD

/-- Greedy piece count over the sub-euro denominations. -/
def g6 (r : Nat) : Nat := gList r SMALLD

/-- Greedy piece count over the full EUR denomination table. -/
def gEur (c : Nat) : Nat := gList c DENOMS_EUR_CENTS

set_option maxRecDepth 100000

/-- Floor division, floor modulus and the loop's subtraction agree:
the remainder the loop carries on is the floor-modulus. -/
theorem fdiv_sub_eq_fmod (r : Int) (d : Nat) :
    r - r.fdiv (d : Int) * (d : Int) = r.fmod (d : Int) := by
  have h := Int.fdiv_add_fmod r (d : Int)
  linarith [h]

/-- Labels of the loop's output are the denomination labels, in order. -/
theorem breakdownLoop_fst : ∀ (ds : List Nat) (r : Int),
    (breakdownLoop r ds).1.map Prod.fst = ds.map euro_label := by
  intro ds
  induction ds with
  | nil => intro r; simp [breakdownLoop]
  | cons d ds ih => intro r; simp [breakdownLoop, ih]

/-- Counts of the loop's output are exactly the greedy count sequence the
spec describes. -/
theorem breakdownLoop_counts : ∀ (ds : List Nat) (r : Int),
    (breakdownLoop r ds).1.map Prod.snd = greedySpecCounts r ds := by
  intro ds
  induction ds with
  | nil => intro r; simp [breakdownLoop, greedySpecCounts]
  | cons d ds ih =>
    intro r
    simp only [breakdownLoop, greedySpecCounts, List.map_cons, fdiv_sub_eq_fmod, ih]

/-- On a non-negative amount the loop computes the Nat greedy counts and
the Nat greedy remainder. -/
theorem breakdownLoop_ofNat : ∀ (ds : List Nat) (n : Nat),
    (breakdownLoop (n : Int) ds).1.map Prod.snd = (gCountList n ds).map (fun (k : Nat) => (k : Int)) ∧
    (breakdownLoop (n : Int) ds).2 = ((rList n ds : Nat) : Int) := by
  intro ds
  induction ds with
  | nil => intro n; simp [breakdownLoop, gCountList, rList]
  | cons d ds ih =>
    intro n
    have hdiv : (n : Int).fdiv (d : Int) = ((n / d : Nat) : Int) := (Int.ofNat_fdiv n d).symm
    have hmod : (n : Int) - ((n / d : Nat) : Int) * ((d : Nat) : Int) = ((n % d : Nat) : Int) := by
      have h : ((d : Int)) * ((n / d : Nat) : Int) + ((n % d : Nat) : Int) = (n : Int) := by
        exact_mod_cast Nat.div_add_mod n d
      linarith [h]
    simp only [breakdownLoop, gCountList, rList, List.map_cons, hdiv, hmod, ih]
    exact ⟨trivial, trivial⟩

/-- The last denomination is 1 cent, so the greedy remainder over the
full table is always 0. -/
theorem rList_eur (n : Nat) : rList n DENOMS_EUR_CENTS = 0 := by
  simp [rList, DENOMS_EUR_CENTS, Nat.mod_one]

/-- Each denomination's display label re-parses (the way
breakdown_value_cents re-parses labels) to exactly its cent value. -/
theorem label_roundtrip : ∀ d ∈ DENOMS_EUR_CENTS,
    labelValue (euro_label d) = some ((d : Nat) : Int) := by decide

/-- Telescoping: the re-parsed value of the loop's output is the initial
remainder minus the final remainder. -/
theorem value_loop : ∀ (ds : List Nat),
    (∀ d ∈ ds, labelValue (euro_label d) = some ((d : Nat) : Int)) →
    ∀ r : Int, breakdown_value_cents ((breakdownLoop r ds).1) = some (r - (breakdownLoop r ds).2) := by
  intro ds
  induction ds with
  | nil => intro _ r; simp [breakdownLoop, breakdown_value_cents]
  | cons d ds ih =>
    intro h r
    have hd := h d (by simp)
    have hds : ∀ x ∈ ds, labelValue (euro_label x) = some ((x : Nat) : Int) := by
      intro x hx; exact h x (by simp [hx])
    simp only [breakdownLoop, breakdown_value_cents, hd, ih hds, Option.some_bind,
      Option.bind_eq_bind]
    congr 1
    ring

/-- C1.  For every non-negative integer cents amount C the reconstructed
value of the breakdown equals C exactly:
breakdown_value_cents (compute_breakdown C) = some C. -/
theorem breakdown_value_roundtrip (C : Int) (h : 0 ≤ C) :
    breakdown_value_cents (compute_breakdown C) = some C := by
  obtain ⟨n, rfl⟩ : ∃ n : Nat, C = (n : Int) := ⟨C.toNat, (Int.toNat_of_nonneg h).symm⟩
  have hv := value_loop DENOMS_EUR_CENTS label_roundtrip (n : Int)
  unfold compute_breakdown
  rw [hv, (breakdownLoop_ofNat DENOMS_EUR_CENTS n).2, rList_eur]
  simp

/-- C1 witness at C = 1234. -/
theorem breakdown_value_roundtrip_witness :
    breakdown_value_cents (compute_breakdown 1234) = some 1234 :=
  breakdown_value_roundtrip 1234 (by norm_num)

/-- C2.  For every non-negative cents amount the breakdown follows the
greedy algorithm over the fixed descending 13-denomination table: the
counts are the floor-division sequence of the running remainder, and
after the final 1-cent denomination the remainder is exactly 0. -/
theorem compute_breakdown_greedy (C : Int) (h : 0 ≤ C) :
    (compute_breakdown C).map Prod.snd = greedySpecCounts C DENOMS_EUR_CENTS ∧
    (breakdownLoop C DENOMS_EUR_CENTS).2 = 0 ∧
    (compute_breakdown C).map Prod.fst = DENOM_LABELS ∧
    DENOMS_EUR_CENTS.length = 13 ∧ List.Pairwise (fun a b => b < a) DENOMS_EUR_CENTS := by
  refine ⟨breakdownLoop_counts _ _, ?_, breakdownLoop_fst _ _, by decide, by decide⟩
  obtain ⟨n, rfl⟩ : ∃ n : Nat, C = (n : Int) := ⟨C.toNat, (Int.toNat_of_nonneg h).symm⟩
  rw [(breakdownLoop_ofNat DENOMS_EUR_CENTS n).2, rList_eur]
  simp

/-- C2 witness at C = 1234. -/
theorem compute_breakdown_greedy_witness :
    (compute_breakdown 1234).map Prod.snd = greedySpecCounts 1234 DENOMS_EUR_CENTS ∧
    (breakdownLoop 1234 DENOMS_EUR_CENTS).2 = 0 ∧
    (compute_breakdown 1234).map Prod.fst = DENOM_LABELS ∧
    DENOMS_EUR_CENTS.length = 13 ∧ List.Pairwise (fun a b => b < a) DENOMS_EUR_CENTS :=
  compute_breakdown_greedy 1234 (by norm_num)

/-- C5 counterexample.  The claim quantifies over every integer C, but at
C = -1 Python floor division gives the 100 € denomination the count
-1 // 10000 = -1, a negative count. -/
theorem compute_breakdown_neg_count :
    dictGetD (compute_breakdown (-1)) "100 €" = -1 ∧
    dictGetD (compute_breakdown (-1)) "100 €" < 0 := by decide

/-- C5 amended.  For every non-negative C every count in
compute_breakdown C is non-negative, and compute_breakdown is
deterministic (the same C always yields the same counts). -/
theorem compute_breakdown_counts_nonneg (C : Int) (h : 0 ≤ C) :
    (∀ p ∈ compute_breakdown C, 0 ≤ p.2) ∧
    (∀ C2 : Int, C = C2 → compute_breakdown C = compute_breakdown C2) := by
  constructor
  · intro p hp
    obtain ⟨n, rfl⟩ : ∃ n : Nat, C = (n : Int) := ⟨C.toNat, (Int.toNat_of_nonneg h).symm⟩
    have hsnd : p.2 ∈ (compute_breakdown (n : Int)).map Prod.snd :=
      List.mem_map_of_mem Prod.snd hp
    unfold compute_breakdown at hsnd
    rw [(breakdownLoop_ofNat DENOMS_EUR_CENTS n).1] at hsnd
    obtain ⟨k, _, hk⟩ := List.mem_map.mp hsnd
    have hk2 : ((k : Nat) : Int) = p.2 := hk
    omega
  · intro C2 hC2
    rw [hC2]

/-- C5 amended witness at C = 1234. -/
theorem compute_breakdown_counts_nonneg_witness :
    (∀ p ∈ compute_breakdown 1234, 0 ≤ p.2) ∧
    (∀ C2 : Int, 1234 = C2 → compute_breakdown 1234 = compute_breakdown C2) :=
  compute_breakdown_counts_nonneg 1234 (by norm_num)

/-- C3.  parse_amount_sk on the spec's test vectors: "" is accepted as 0,
"12,34" as 1234 cents, "12.3" as 1230 cents; "12,345", "-5" and "abc"
fail with FormatError. -/
theorem parse_amount_vectors :
    parse_amount_sk "" = ParseResult.ok 0 ∧
    parse_amount_sk "12,34" = ParseResult.ok 1234 ∧
    parse_amount_sk "12.3" = ParseResult.ok 1230 ∧
    parse_amount_sk "12,345" = ParseResult.formatError ∧
    parse_amount_sk "-5" = ParseResult.formatError ∧
    parse_amount_sk "abc" = ParseResult.formatError := by decide

/-- C10.  For each of the 13 denominations, parsing the display label
euro_label d the way breakdown_value_cents does (strip "€" and multiply
by 100, or strip "c") yields exactly d's minor-unit value. -/
theorem label_roundtrip_all :
    (DENOMS_EUR_CENTS.all fun d => labelValue (euro_label d) == some ((d : Nat) : Int)) = true := by
  decide

/-- Letters produced by the code loop are valid and their character code
survives the Char round trip. -/
theorem char_code_roundtrip : ∀ r : Nat, r < 26 → (Char.ofNat (65 + r)).toNat = 65 + r := by
  decide

/-- decodeCode is a left inverse of the code loop whenever the fuel
covers the loop variable. -/
theorem decode_idxCodeAux : ∀ (f n : Nat), n ≤ f → decodeCode (idxCodeAux f n) = n := by
  intro f
  induction f with
  | zero =>
    intro n hn
    interval_cases n
    simp [idxCodeAux, decodeCode]
  | succ f ih =>
    intro n hn
    by_cases h0 : n = 0
    · subst h0; simp [idxCodeAux, decodeCode]
    · have hne : (n == 0) = false := by simp [h0]
      simp only [idxCodeAux, hne, Bool.false_eq_true, if_false]
      have hch := char_code_roundtrip ((n - 1) % 26) (Nat.mod_lt _ (by norm_num))
      have hm : (n - 1) / 26 ≤ f := by
        have := Nat.div_le_self (n - 1) 26
        omega
      have hd := ih ((n - 1) / 26) hm
      simp only [decodeCode, List.foldl_append, List.foldl_cons, List.foldl_nil] at hd ⊢
      rw [hd, hch]
      omega

/-- C7.  idx_to_person_code is injective over the natural numbers and
produces the bijective base-26 letter encoding: 0 -> "A", 1 -> "B",
25 -> "Z", 26 -> "AA", 27 -> "AB", 701 -> "ZZ", 702 -> "AAA". -/
theorem idx_to_person_code_spec :
    Function.Injective idx_to_person_code ∧
    idx_to_person_code 0 = "A" ∧ idx_to_person_code 1 = "B" ∧
    idx_to_person_code 25 = "Z" ∧ idx_to_person_code 26 = "AA" ∧
    idx_to_person_code 27 = "AB" ∧ idx_to_person_code 701 = "ZZ" ∧
    idx_to_person_code 702 = "AAA" := by
  constructor
  · intro i j h
    have h2 : idxCodeAux (i + 1) (i + 1) = idxCodeAux (j + 1) (j + 1) := congrArg String.data h
    have h3 := congrArg decodeCode h2
    rw [decode_idxCodeAux (i + 1) (i + 1) (le_refl _),
        decode_idxCodeAux (j + 1) (j + 1) (le_refl _)] at h3
    omega
  · exact ⟨by decide, by decide, by decide, by decide, by decide, by decide, by decide⟩

/-- Branch equation of amountShape when no separator follows the digits. -/
theorem amountShape_nil_eq (cs : List Char) (h : cs.dropWhile Char.isDigit = []) :
    amountShape cs = !(cs.takeWhile Char.isDigit).isEmpty := by
  unfold amountShape
  rw [h]

/-- Branch equation of amountShape when a separator candidate follows. -/
theorem amountShape_cons_eq (cs : List Char) (sep : Char) (fs : List Char)
    (h : cs.dropWhile Char.isDigit = sep :: fs) :
    amountShape cs = (!(cs.takeWhile Char.isDigit).isEmpty &&
      ((sep == ',' || sep == '.') && fs.all Char.isDigit && decide (fs.length ≤ 2))) := by
  unfold amountShape
  rw [h]

/-- Branch equation of shapeCents when no separator follows the digits. -/
theorem shapeCents_nil_eq (cs : List Char) (h : cs.dropWhile Char.isDigit = []) :
    shapeCents cs = (if (cs.takeWhile Char.isDigit).isEmpty then none
      else some ((digitsToNat (cs.takeWhile Char.isDigit) * 100 : Nat) : Int)) := by
  unfold shapeCents
  rw [h]

/-- Branch equation of shapeCents when a separator candidate follows. -/
theorem shapeCents_cons_eq (cs : List Char) (sep : Char) (fs : List Char)
    (h : cs.dropWhile Char.isDigit = sep :: fs) :
    shapeCents cs = (if !(cs.takeWhile Char.isDigit).isEmpty &&
        ((sep == ',' || sep == '.') && fs.all Char.isDigit && decide (fs.length ≤ 2)) then
      some ((digitsToNat (cs.takeWhile Char.isDigit) * 100 + fracCents fs : Nat) : Int)
    else none) := by
  unfold shapeCents
  rw [h]

/-- A string that passes the shape gate always converts: the defensive
ParseError branch cannot fire, and the value is a natural number of
cents. -/
theorem shapeCents_of_shape (cs : List Char) (h : amountShape cs = true) :
    ∃ n : Nat, shapeCents cs = some ((n : Nat) : Int) := by
  cases hdw : cs.dropWhile Char.isDigit with
  | nil =>
    rw [amountShape_nil_eq cs hdw] at h
    rw [shapeCents_nil_eq cs hdw]
    have hne : (cs.takeWhile Char.isDigit).isEmpty = false := by
      cases hh : (cs.takeWhile Char.isDigit).isEmpty <;> simp [hh] at h ⊢
    simp only [hne, Bool.false_eq_true, if_false]
    exact ⟨_, rfl⟩
  | cons sep fs =>
    rw [amountShape_cons_eq cs sep fs hdw] at h
    rw [shapeCents_cons_eq cs sep fs hdw, if_pos h]
    exact ⟨_, rfl⟩

/-- Every value shapeCents produces is non-negative. -/
theorem shapeCents_nonneg (cs : List Char) (v : Int) (h : shapeCents cs = some v) : 0 ≤ v := by
  cases hdw : cs.dropWhile Char.isDigit with
  | nil =>
    rw [shapeCents_nil_eq cs hdw] at h
    by_cases he : (cs.takeWhile Char.isDigit).isEmpty <;> simp [he] at h
    rw [← h]
    exact Int.natCast_nonneg _
  | cons sep fs =>
    rw [shapeCents_cons_eq cs sep fs hdw] at h
    by_cases hc : (!(cs.takeWhile Char.isDigit).isEmpty &&
        ((sep == ',' || sep == '.') && fs.all Char.isDigit && decide (fs.length ≤ 2))) = true <;>
      simp only [hc, Bool.false_eq_true, if_true, if_false, Option.some.injEq,
        reduceCtorEq] at h
    rw [← h]
    exact Int.natCast_nonneg _

/-- C9.  The NegativeValueError branch of parse_amount_sk is unreachable:
no input string ever produces it, because every value the format gate
lets through parses to a non-negative number of cents (second conjunct:
the parsed value of the normalized input, when defined, is ≥ 0). -/
theorem parse_amount_never_negative (s : String) :
    isNegativeValueError (parse_amount_sk s) = false ∧
    0 ≤ (shapeCents (normalizeAmount s)).getD 0 := by
  constructor
  · unfold parse_amount_sk
    by_cases he : (normalizeAmount s).isEmpty
    · simp [he, isNegativeValueError]
    · by_cases hs : amountShape (normalizeAmount s)
      · obtain ⟨n, hn⟩ := shapeCents_of_shape _ hs
        have hnn : ¬((n : Int) < 0) := by omega
        simp [he, hs, hn, hnn, isNegativeValueError]
      · simp [he, hs, isNegativeValueError]
  · cases hc : shapeCents (normalizeAmount s) with
    | none => simp
    | some v => simpa using shapeCents_nonneg _ v hc

/-- C6.  parse_amount_sk accepts exactly the inputs whose normalisation
(strip surrounding whitespace, drop internal spaces) is empty or matches
the digits-with-optional-separator shape; every other input fails with
FormatError. -/
theorem parse_amount_accepts_exactly (s : String) :
    ((∃ c, parse_amount_sk s = ParseResult.ok c) ↔
      (normalizeAmount s = [] ∨ amountShape (normalizeAmount s) = true)) ∧
    (parse_amount_sk s = ParseResult.formatError ↔
      ¬(normalizeAmount s = [] ∨ amountShape (normalizeAmount s) = true)) := by
  by_cases he : (normalizeAmount s).isEmpty
  · have he2 : normalizeAmount s = [] := List.isEmpty_iff.mp he
    unfold parse_amount_sk
    simp [he, he2]
  · have he2 : ¬(normalizeAmount s = []) := by
      intro hx
      rw [hx] at he
      simp at he
    by_cases hs : amountShape (normalizeAmount s)
    · obtain ⟨n, hn⟩ := shapeCents_of_shape _ hs
      have hnn : ¬((n : Int) < 0) := by omega
      unfold parse_amount_sk
      simp [he, hs, hn, hnn, he2]
    · unfold parse_amount_sk
      simp [he, hs, he2]

/-- Pointwise addition distributes over a mapped list sum. -/
theorem sum_map_add {α : Type} (L : List α) (f g : α → Int) :
    (L.map fun x => f x + g x).sum = (L.map f).sum + (L.map g).sum := by
  induction L with
  | nil => simp
  | cons a t ih => simp [ih]; ring

/-- Dictionary lookup of the head label of a label-keyed breakdown. -/
theorem dictGetD_cons_self (lbl : String) (c : Int) (bt : List (String × Int)) :
    dictGetD ((lbl, c) :: bt) lbl = c := by
  simp [dictGetD, List.find?_cons_of_pos]

/-- Dictionary lookup skips a head entry with a different label. -/
theorem dictGetD_cons_ne (lbl lbl2 : String) (c : Int) (bt : List (String × Int))
    (h : lbl2 ≠ lbl) : dictGetD ((lbl2, c) :: bt) lbl = dictGetD bt lbl := by
  simp [dictGetD, List.find?_cons_of_neg, h]

/-- Per-person agreement: the value breakdown_value_cents re-parses from
a breakdown keyed by the denomination labels equals that breakdown's
contribution to the per-denomination aggregate values. -/
theorem breakdown_value_as_getD : ∀ (L : List Nat) (b : List (String × Int)),
    (∀ d ∈ L, labelValue (euro_label d) = some ((d : Nat) : Int)) →
    (L.map euro_label).Nodup →
    b.map Prod.fst = L.map euro_label →
    breakdown_value_cents b = some ((L.map fun d => dictGetD b (euro_label d) * (d : Int)).sum) := by
  intro L
  induction L with
  | nil =>
    intro b _ _ hfst
    cases b with
    | nil => simp [breakdown_value_cents]
    | cons e bt => simp at hfst
  | cons d ds ih =>
    intro b hlab hnd hfst
    cases b with
    | nil => simp at hfst
    | cons e bt =>
      obtain ⟨l0, c0⟩ := e
      simp only [List.map_cons, List.cons.injEq] at hfst
      obtain ⟨hl0, hbt⟩ := hfst
      subst hl0
      have hd := hlab d (by simp)
      have hds : ∀ x ∈ ds, labelValue (euro_label x) = some ((x : Nat) : Int) := by
        intro x hx; exact hlab x (by simp [hx])
      have hnd2 : (ds.map euro_label).Nodup := (List.nodup_cons.mp hnd).2
      have hnotin : euro_label d ∉ ds.map euro_label := (List.nodup_cons.mp hnd).1
      have hih := ih bt hds hnd2 hbt
      have htail : (ds.map fun x => dictGetD ((euro_label d, c0) :: bt) (euro_label x) * (x : Int))
          = ds.map fun x => dictGetD bt (euro_label x) * (x : Int) := by
        apply List.map_congr_left
        intro x hx
        have hne : euro_label d ≠ euro_label x := by
          intro he
          exact hnotin (he ▸ List.mem_map_of_mem euro_label hx)
        rw [dictGetD_cons_ne _ _ _ _ hne]
      simp only [breakdown_value_cents, hd, hih, Option.bind_eq_bind, Option.some_bind,
        List.map_cons, dictGetD_cons_self, htail, List.sum_cons]
      congr 1
      ring

/-- The aggregate count of a label splits off the first person. -/
theorem summaryCount_cons (b : List (String × Int)) (bs : List (List (String × Int)))
    (lbl : String) : summaryCount (b :: bs) lbl = dictGetD b lbl + summaryCount bs lbl := by
  simp [summaryCount]

/-- C4.  For every list of per-person breakdowns keyed by the
denomination labels, the grand total (the sum of the per-person
re-parsed reconstructed values, which is how the source accumulates
summary_total_cents) equals the sum over all denominations of aggregate
count times denomination value — the two totals of the summary agree. -/
theorem aggregate_totals_agree (bs : List (List (String × Int)))
    (h : ∀ b ∈ bs, b.map Prod.fst = DENOM_LABELS) :
    summary_total_cents bs = some (summary_value_cents bs) := by
  induction bs with
  | nil =>
    simp [summary_total_cents, summary_value_cents, summaryCount]
  | cons b bs ih =>
    have hb := h b (by simp)
    have hbs : ∀ x ∈ bs, x.map Prod.fst = DENOM_LABELS := by
      intro x hx; exact h x (by simp [hx])
    have hnd : (DENOMS_EUR_CENTS.map euro_label).Nodup := by decide
    have hval := breakdown_value_as_getD DENOMS_EUR_CENTS b label_roundtrip hnd hb
    simp only [summary_total_cents, hval, ih hbs, Option.bind_eq_bind, Option.some_bind]
    congr 1
    unfold summary_value_cents
    have hsplit : (DENOMS_EUR_CENTS.map fun d => summaryCount (b :: bs) (euro_label d) * (d : Int))
        = DENOMS_EUR_CENTS.map fun d =>
            dictGetD b (euro_label d) * (d : Int) + summaryCount bs (euro_label d) * (d : Int) := by
      apply List.map_congr_left
      intro d _
      rw [summaryCount_cons]
      ring
    rw [hsplit, sum_map_add]

/-- C4 witness on the spec's end-to-end example (persons with 1234 and
66 cents). -/
theorem aggregate_totals_agree_witness :
    summary_total_cents [compute_breakdown 1234, compute_breakdown 66] =
      some (summary_value_cents [compute_breakdown 1234, compute_breakdown 66]) :=
  aggregate_totals_agree [compute_breakdown 1234, compute_breakdown 66] (by decide)

/-- Greedy counting splits over an appended denomination list at the
carried remainder. -/
theorem gList_append (xs ys : List Nat) : ∀ r : Nat,
    gList r (xs ++ ys) = gList r xs + gList (rList r xs) ys := by
  induction xs with
  | nil => intro r; simp [gList, rList]
  | cons d ds ih => intro r; simp [gList, rList, ih, Nat.add_assoc]

/-- Scaling: greedily processing the denominations multiplied by 100 on
the amount 100 q + r (r < 100) issues the counts of q over the unscaled
denominations and leaves remainder 100 (unscaled remainder) + r. -/
theorem gList_scaled : ∀ (L : List Nat), (∀ d ∈ L, 0 < d) → ∀ (q r : Nat), r < 100 →
    gList (100 * q + r) (L.map fun d => d * 100) = gList q L ∧
    rList (100 * q + r) (L.map fun d => d * 100) = 100 * rList q L + r := by
  intro L
  induction L with
  | nil => intro _ q r _; exact ⟨rfl, rfl⟩
  | cons d ds ih =>
    intro hL q r hr
    have hd : 0 < d := hL d (by simp)
    have hds : ∀ x ∈ ds, 0 < x := by intro x hx; exact hL x (by simp [hx])
    obtain ⟨a, b, hab, hb⟩ : ∃ a b, d * a + b = q ∧ b < d :=
      ⟨q / d, q % d, Nat.div_add_mod q d, Nat.mod_lt q hd⟩
    have hqd : q / d = a := by
      rw [← hab, Nat.mul_add_div hd, Nat.div_eq_of_lt hb, Nat.add_zero]
    have hqm : q % d = b := by
      rw [← hab, Nat.mul_add_mod, Nat.mod_eq_of_lt hb]
    have key : 100 * q + r = (d * 100) * a + (100 * b + r) := by
      rw [← hab]; ring
    have hlt : 100 * b + r < d * 100 := by omega
    have hdiv : (100 * q + r) / (d * 100) = a := by
      rw [key, Nat.mul_add_div (by omega), Nat.div_eq_of_lt hlt, Nat.add_zero]
    have hmod : (100 * q + r) % (d * 100) = 100 * b + r := by
      rw [key, Nat.mul_add_mod, Nat.mod_eq_of_lt hlt]
    have hrec := ih hds b r hr
    constructor
    · simp only [List.map_cons, gList, hdiv, hmod, hrec.1, hqd, hqm]
    · simp only [List.map_cons, rList, hmod, hrec.2, hqm]

/-- The whole-euro pass always ends with remainder 0 (its last
denomination is 1). -/
theorem rList_BIGD (q : Nat) : rList q BIGD = 0 := by
  simp [rList, BIGD, Nat.mod_one]

/-- Splitting the greedy count over the full table into the whole-euro
part on C / 100 and the coin part on C % 100. -/
theorem gEur_split (C : Nat) : gEur C = g7 (C / 100) + g6 (C % 100) := by
  obtain ⟨q, r, hqr, hr⟩ : ∃ q r, C = 100 * q + r ∧ r < 100 :=
    ⟨C / 100, C % 100, by omega, by omega⟩
  subst hqr
  have hq : (100 * q + r) / 100 = q := by omega
  have hrr : (100 * q + r) % 100 = r := by omega
  rw [hq, hrr]
  have hde : DENOMS_EUR_CENTS = (BIGD.map fun d => d * 100) ++ SMALLD := by decide
  have hsc := gList_scaled BIGD (by decide) q r hr
  rw [gEur, hde, gList_append, hsc.1, hsc.2, rList_BIGD]
  simp only [g7, g6, Nat.mul_zero, Nat.zero_add]

/-- The whole-euro greedy count is periodic above 100 euros: one more
100-euro note. -/
theorem g7_period (q : Nat) (h : 100 ≤ q) : g7 q = g7 (q - 100) + 1 := by
  simp only [g7, BIGD, gList]
  omega

/-- Finite base of the whole-euro single-coin exchange bound. -/
theorem g7_base : ∀ q, q < 200 → ∀ e ∈ BIGD, e ≤ q → g7 q ≤ g7 (q - e) + 1 := by decide

/-- Removing one whole-euro denomination from an amount lowers the
whole-euro greedy count by at most one piece. -/
theorem g7_step : ∀ e ∈ BIGD, ∀ q : Nat, e ≤ q → g7 q ≤ g7 (q - e) + 1 := by
  intro e he q
  induction q using Nat.strong_induction_on with
  | _ q ih =>
    intro hq
    by_cases h200 : q < 200
    · exact g7_base q h200 e he hq
    · have he100 : e ≤ 100 := by fin_cases he <;> norm_num
      have p1 := g7_period q (by omega)
      have p2 := g7_period (q - e) (by omega)
      have p3 := ih (q - 100) (by omega) (by omega)
      have h4 : q - e - 100 = q - 100 - e := by omega
      rw [h4] at p2
      omega

/-- Removing one coin denomination lowers the coin greedy count by at
most one piece (finite check below one euro). -/
theorem g6_step : ∀ r, r < 100 → ∀ d ∈ SMALLD, d ≤ r → g6 r ≤ g6 (r - d) + 1 := by decide

/-- Wrap-around bound: a coin remainder r below the removed coin d is
never greedily longer than r + 100 - d. -/
theorem g6_wrap : ∀ d ∈ SMALLD, ∀ r, r < d → g6 r ≤ g6 (r + 100 - d) := by decide

/-- Exchange bound for a whole-euro denomination over the full table. -/
theorem gEur_step_big (db e : Nat) (he : e ∈ BIGD) (hde : db = 100 * e) (C : Nat)
    (h : db ≤ C) : gEur C ≤ gEur (C - db) + 1 := by
  subst hde
  rw [gEur_split, gEur_split]
  have h1 : (C - 100 * e) / 100 = C / 100 - e := by omega
  have h2 : (C - 100 * e) % 100 = C % 100 := by omega
  have h3 : e ≤ C / 100 := by omega
  rw [h1, h2]
  have h4 := g7_step e he (C / 100) h3
  omega

/-- Exchange bound for a coin denomination over the full table. -/
theorem gEur_step_small (dd : Nat) (hdd : dd ∈ SMALLD) (C : Nat) (h : dd ≤ C) :
    gEur C ≤ gEur (C - dd) + 1 := by
  rw [gEur_split, gEur_split]
  have hdd50 : 0 < dd ∧ dd ≤ 50 := by fin_cases hdd <;> norm_num
  by_cases hr : dd ≤ C % 100
  · have h1 : (C - dd) / 100 = C / 100 := by omega
    have h2 : (C - dd) % 100 = C % 100 - dd := by omega
    rw [h1, h2]
    have h4 := g6_step (C % 100) (by omega) dd hdd hr
    omega
  · have hq : 1 ≤ C / 100 := by omega
    have h1 : (C - dd) / 100 = C / 100 - 1 := by omega
    have h2 : (C - dd) % 100 = C % 100 + 100 - dd := by omega
    rw [h1, h2]
    have h4 := g7_step 1 (by decide) (C / 100) hq
    have h5 := g6_wrap dd hdd (C % 100) (by omega)
    omega

/-- Exchange bound: removing any single denomination from an amount
lowers the full greedy piece count by at most one. -/
theorem gEur_step : ∀ d ∈ DENOMS_EUR_CENTS, ∀ C : Nat, d ≤ C → gEur C ≤ gEur (C - d) + 1 := by
  intro d hd C hdC
  fin_cases hd
  · exact gEur_step_big 10000 100 (by decide) (by norm_num) C hdC
  · exact gEur_step_big 5000 50 (by decide) (by norm_num) C hdC
  · exact gEur_step_big 2000 20 (by decide) (by norm_num) C hdC
  · exact gEur_step_big 1000 10 (by decide) (by norm_num) C hdC
  · exact gEur_step_big 500 5 (by decide) (by norm_num) C hdC
  · exact gEur_step_big 200 2 (by decide) (by norm_num) C hdC
  · exact gEur_step_big 100 1 (by decide) (by norm_num) C hdC
  · exact gEur_step_small 50 (by decide) C hdC
  · exact gEur_step_small 20 (by decide) C hdC
  · exact gEur_step_small 10 (by decide) C hdC
  · exact gEur_step_small 5 (by decide) C hdC
  · exact gEur_step_small 2 (by decide) C hdC
  · exact gEur_step_small 1 (by decide) C hdC

/-- Any decomposition is either the zero decomposition of 0 or gives up
one unit of some denomination, leaving a decomposition of C - d. -/
theorem rep_dec : ∀ (ds cs : List Nat) (C : Nat), cs.length = ds.length →
    (List.zipWith (fun c d => c * d) cs ds).sum = C →
    (cs.sum = 0 ∧ C = 0) ∨
    ∃ d ∈ ds, d ≤ C ∧ ∃ cs2 : List Nat, cs2.length = ds.length ∧
      (List.zipWith (fun c d => c * d) cs2 ds).sum = C - d ∧ cs2.sum + 1 = cs.sum := by
  intro ds
  induction ds with
  | nil =>
    intro cs C hlen hsum
    left
    have hnil : cs = [] := List.length_eq_zero.mp (by simpa using hlen)
    subst hnil
    simp at hsum
    exact ⟨by simp, hsum.symm⟩
  | cons d ds ih =>
    intro cs C hlen hsum
    cases cs with
    | nil => simp at hlen
    | cons c ct =>
      have hlen2 : ct.length = ds.length := by
        simp only [List.length_cons] at hlen
        omega
      cases c with
      | zero =>
        have hs : (List.zipWith (fun c d => c * d) ct ds).sum = C := by simpa using hsum
        rcases ih ct C hlen2 hs with ⟨h0, hC⟩ | ⟨d2, hd2, hdC, cs2, hl2, hs2, hcnt⟩
        · left
          exact ⟨by simp [h0], hC⟩
        · right
          refine ⟨d2, by simp [hd2], hdC, 0 :: cs2, by simp [hl2], by simpa using hs2, ?_⟩
          simpa using hcnt
      | succ k =>
        right
        have hzip : (k + 1) * d + (List.zipWith (fun c d => c * d) ct ds).sum = C := by
          simpa using hsum
        have hdk : (k + 1) * d = k * d + d := by ring
        rw [hdk] at hzip
        refine ⟨d, by simp, by omega, k :: ct, by simp [hlen2], ?_, ?_⟩
        · simp only [List.zipWith_cons_cons, List.sum_cons]
          omega
        · simp only [List.sum_cons]
          omega

/-- Greedy optimality over the EUR table: the greedy piece count is a
lower bound on every decomposition's piece count. -/
theorem greedy_min : ∀ (C : Nat) (cs : List Nat), cs.length = 13 →
    (List.zipWith (fun c d => c * d) cs DENOMS_EUR_CENTS).sum = C → gEur C ≤ cs.sum := by
  intro C
  induction C using Nat.strong_induction_on with
  | _ C ih =>
    intro cs hlen hsum
    have hlen2 : cs.length = DENOMS_EUR_CENTS.length := by rw [hlen]; rfl
    rcases rep_dec DENOMS_EUR_CENTS cs C hlen2 hsum with ⟨h0, hC⟩ | ⟨d, hd, hdC, cs2, hl2, hs2, hcnt⟩
    · subst hC
      have hz : gEur 0 = 0 := by decide
      omega
    · have hdpos : 0 < d := by fin_cases hd <;> norm_num
      have h1 := ih (C - d) (by omega) cs2 (by rw [hl2]; rfl) hs2
      have h2 := gEur_step d hd C hdC
      omega

/-- Summing the greedy count list gives the greedy piece count. -/
theorem gCountList_sum : ∀ (ds : List Nat) (r : Nat), (gCountList r ds).sum = gList r ds := by
  intro ds
  induction ds with
  | nil => intro r; simp [gCountList, gList]
  | cons d ds ih => intro r; simp [gCountList, gList, ih]

/-- Casting a summed Nat list into Int. -/
theorem sum_map_natCast (L : List Nat) : (L.map fun (k : Nat) => (k : Int)).sum = (L.sum : Int) := by
  induction L with
  | nil => simp
  | cons a t ih =>
    simp only [List.map_cons, List.sum_cons, ih, Nat.cast_add]

/-- The total piece count of compute_breakdown on a non-negative amount
is the Nat greedy piece count. -/
theorem total_pieces_greedy (n : Nat) :
    total_pieces (compute_breakdown (n : Int)) = (gEur n : Int) := by
  unfold total_pieces compute_breakdown
  rw [(breakdownLoop_ofNat DENOMS_EUR_CENTS n).1, sum_map_natCast, gCountList_sum]
  rfl

/-- C8.  For every non-negative cents amount C, the greedy breakdown is
optimal: its total piece count is at most the total piece count of every
decomposition of C into non-negative counts over the fixed 13-denomination
EUR table. -/
theorem greedy_breakdown_optimal (C : Nat) (cs : List Nat) (hlen : cs.length = 13)
    (hsum : (List.zipWith (fun c d => c * d) cs DENOMS_EUR_CENTS).sum = C) :
    total_pieces (compute_breakdown (C : Int)) ≤ (cs.sum : Int) := by
  rw [total_pieces_greedy]
  exact_mod_cast greedy_min C cs hlen hsum

/-- C8 witness: 66 cents against the decomposition 50 + 10 + 5 + 1. -/
theorem greedy_breakdown_optimal_witness :
    total_pieces (compute_breakdown ((66 : Nat) : Int)) ≤
      (([0, 0, 0, 0, 0, 0, 0, 1, 0, 1, 1, 0, 1] : List Nat).sum : Int) :=
  greedy_breakdown_optimal 66 [0, 0, 0, 0, 0, 0, 0, 1, 0, 1, 1, 0, 1] (by decide) (by decide)
